import Mathlib

/-!
Verification of the SeqTools lazy-sequence library against its
natural-language specification.

The Python sources under `seqtools/` are shallowly embedded below:
pure view combinators become Lean functions on lists; the stateful
prefetch scheduler becomes explicit state passing over a `Sched`
record, with the nondeterministic arrival order of worker completions
abstracted by an oracle (a list of naturals choosing which in-flight
job finishes next).  Fallible Python code (raising exceptions) is
embedded with `Except` / `Option` results.
-/

namespace SeqTools

/-! ## Python-style helpers

`basic_getitem` (seqtools/utils.py) validates an index before
delegating to the wrapped view; keys may be integers, slices, or
anything else (which raises `TypeError`). -/

/-- A key passed to a Python `__getitem__`: an integer, a slice, or a
value of some other type (identified here by its type name only). -/
inductive PyKey where
  | int (i : Int)
  | slice (start stop step : Option Int)
  | other (typeName : String)
deriving Repr, DecidableEq

/-- Exceptions surfaced by the index-validation layer. -/
inductive PyExn where
  | indexError (msg : String)
  | typeError (msg : String)
  | valueError (msg : String)
deriving Repr, DecidableEq

/-- Result of a `__getitem__` guarded by `basic_getitem`: either an
element, or a fresh slice view (whose construction is delegated to
`SeqSlice` in the source and is out of scope here). -/
inductive GetResult (α : Type) where
  | val (a : α)
  | sliceView (start stop step : Option Int)
deriving Repr, DecidableEq

/-- Embedding of `basic_getitem` (seqtools/utils.py, lines 34-65): the
decorator turns an inner `__getitem__` taking a normalized nonnegative
index into one accepting negative indices and slices.  `clsName` only
feeds the error messages. -/
def basicGetitem {α : Type} (clsName : String) (len : Nat) (inner : Nat → α) :
    PyKey → Except PyExn (GetResult α)
  | .slice a b c => .ok (.sliceView a b c)
  | .int key =>
      if key < -(len : Int) ∨ key ≥ (len : Int) then
        .error (.indexError (clsName ++ " index out of range"))
      else if key < 0 then
        .ok (.val (inner (key + (len : Int)).toNat))
      else
        .ok (.val (inner key.toNat))
  | .other t =>
      .error (.typeError (clsName ++ " indices must be integers or slices, not " ++ t))

/-- Embedding of `normalize_slice` (seqtools/utils.py, lines 110-151).
Python's true-division sign test `(stop - start) / step < 0` is
expressed as the sign test on the product, and Python's `//` and `%`
(floor division, nonnegative remainder for a positive modulus) are
`Int.fdiv` and `Int.emod`. -/
def normalizeSlice (start? stop? step? : Option Int) (size : Int) :
    Except PyExn (Int × Int × Int) := do
  let step ← match step? with
    | none => pure 1
    | some 0 => throw (.valueError "slice step cannot be 0")
    | some s => pure s
  let start := match start? with
    | none => if step > 0 then 0 else size - 1
    | some s => if s ≥ 0 then min s (size - 1) else max 0 (size + s)
  let stop := match stop? with
    | none => if step > 0 then size else -1
    | some s => if s ≥ 0 then min s size else max (-1) (size + s)
  let stop := if (stop - start) * step < 0 then start else stop
  let sz := |stop - start| - 1
  let absStep := |step|
  let numel := (sz + absStep - sz.emod absStep).fdiv absStep
  let stop := start + numel * step
  pure (start, stop, step)

/-! ## Arange (seqtools/indexing.py, lines 11-58) -/

/-- The state of an `Arange` view: a normalized arithmetic progression. -/
structure Arange where
  start : Int
  stop : Int
  step : Int
deriving Repr, DecidableEq

/-- Embedding of `Arange.__init__`: argument defaulting followed by
normalization of `stop` so that it equals `start + numel * step`.  The
sign test `(stop - start) / step < 0` is again the product test. -/
def arangeMk (start : Int) (stop? step? : Option Int) : Arange :=
  let (start, stop) := match stop?, step? with
    | none, none => (0, start)
    | _, _ => (start, stop?.getD start)
  let step := step?.getD 1
  let stop := if (stop - start) * step < 0 then start else stop
  let sz := |stop - start| - 1
  let absStep := |step|
  let numel := (sz + absStep - sz.emod absStep).fdiv absStep
  { start := start, stop := start + step * numel, step := step }

/-- Embedding of `Arange.__len__`. -/
def arangeLen (a : Arange) : Int := |a.stop - a.start|.fdiv |a.step|

/-- Result of `Arange.__getitem__`: an element or a sub-`Arange`. -/
inductive ArangeResult where
  | val (i : Int)
  | sub (a : Arange)
deriving Repr, DecidableEq

/-- Embedding of `Arange.__getitem__` (seqtools/indexing.py, lines
36-53).  A slice is renormalized into a new `Arange`; a non-integral
key raises `TypeError`; an integer key answers `start + step * key`
with no bounds check and no negative-index normalization. -/
def arangeGetitem (a : Arange) : PyKey → Except PyExn ArangeResult
  | .slice s e t => do
      let (start, stop, step) ← normalizeSlice s e t (arangeLen a)
      let numel := |stop - start|.fdiv |step|
      let start := a.start + a.step * start
      let step := a.step * step
      pure (.sub (arangeMk start (some (start + step * numel)) (some step)))
  | .int key => pure (.val (a.start + a.step * key))
  | .other t =>
      throw (.typeError ("Arange indices must be integers or slices, not " ++ t))

/-! ## Gathering (seqtools/indexing.py, lines 61-94) -/

/-- Python list indexing: negative indices count from the end,
out-of-range indices fail. -/
def pyGet {α : Type} (l : List α) (i : Int) : Option α :=
  if i ≥ 0 then l.get? i.toNat
  else if i + (l.length : Int) ≥ 0 then l.get? (i + (l.length : Int)).toNat
  else none

/-- A `Gathering` view: a base sequence (embedded as a list) and an
index array into it. -/
structure Gathering (α : Type) where
  sequence : List α
  indexes : List Int
deriving Repr

/-- `Gathering.__init__` on a base (non-`Gathering`) sequence. -/
def gatherBase {α : Type} (sequence : List α) (indexes : List Int) : Gathering α :=
  { sequence := sequence, indexes := indexes }

/-- A Python list comprehension over a fallible element access:
`[g(x) for x in l]`, failing as soon as one access fails. -/
def mapOption {α β : Type} (g : α → Option β) : List α → Option (List β)
  | [] => some []
  | x :: t => (g x).bind fun y => (mapOption g t).map fun t' => y :: t'

/-- `Gathering.__init__` on a nested `Gathering` (the
`isinstance(sequence, Gathering)` branch): the index arrays are
composed at construction time — `[sequence.indexes[i] for i in
indexes]` — and the inner base sequence is reused, so no second
gather layer is stacked.  Fails (`None`) when some `i` is out of range
for the inner index array, as the Python list comprehension would. -/
def gatherNested {α : Type} (g : Gathering α) (indexes : List Int) :
    Option (Gathering α) :=
  (mapOption (pyGet g.indexes) indexes).map fun composed =>
    { sequence := g.sequence, indexes := composed }

/-- `Gathering.__len__`. -/
def gatherLen {α : Type} (g : Gathering α) : Nat := g.indexes.length

/-- The integer branch of `Gathering.__getitem__` (lines 81-89): bounds
check on `len(self)`, negative-index normalization, then
`self.sequence[self.indexes[key]]`.  `none` on the Python error
paths (its own `IndexError` or one raised by the inner lookups). -/
def gatherGetInt {α : Type} (g : Gathering α) (key : Int) : Option α :=
  if key < -(gatherLen g : Int) ∨ key ≥ (gatherLen g : Int) then none
  else
    let key := if key < 0 then key + (gatherLen g : Int) else key
    (pyGet g.indexes key).bind (pyGet g.sequence)

/-! ## BatchView (seqtools/shape.py, lines 114-147) -/

/-- Embedding of `BatchView.__len__`: `len // k` plus one extra group
when a nonempty remainder exists and `drop_last` is unset. -/
def batchLen (n k : Nat) (dropLast : Bool) : Nat :=
  n / k + (if n % k > 0 ∧ dropLast = false then 1 else 0)

/-- Embedding of the inner `BatchView.__getitem__` (lines 135-147),
after `basic_getitem` has normalized `key` to a nonnegative in-range
index; `collate_fn` is `None`.  The Python slice
`sequence[key*k:(key+1)*k]` clips at the sequence end, and when `key`
is the last group and a pad value is set, `k - n % k` pad items are
appended. -/
def batchGet {α : Type} (seq : List α) (k : Nat) (dropLast : Bool)
    (pad : Option α) (key : Nat) : List α :=
  let result := (seq.drop (key * k)).take k
  match pad with
  | some p =>
      if key = batchLen seq.length k dropLast - 1 then
        result ++ List.replicate (k - seq.length % k) p
      else result
  | none => result

/-! ## CachedSequence (seqtools/buffering.py, lines 308-332)

The cache is an `OrderedDict`, embedded as an insertion-ordered
association list; `popitem(False)` removes the front (oldest
inserted) entry. -/

/-- Lookup in an insertion-ordered association list (the embedding of
a Python `dict` / `OrderedDict`). -/
def dictLookup {κ β : Type} [DecidableEq κ] : List (κ × β) → κ → Option β
  | [], _ => none
  | p :: t, k => if p.1 = k then some p.2 else dictLookup t k

/-- Embedding of the inner `CachedSequence.__getitem__` (after
`basic_getitem` normalization, under the mutex): a hit returns the
stored value; a miss evaluates the wrapped sequence, evicts the front
entry of the `OrderedDict` when the cache is full, and appends the new
entry.  The boolean records whether the wrapped sequence was
evaluated. -/
def cachedGet {α : Type} (seq : Nat → α) (cacheSize : Nat)
    (cache : List (Nat × α)) (key : Nat) : α × List (Nat × α) × Bool :=
  match dictLookup cache key with
  | some v => (v, cache, false)
  | none =>
      let v := seq key
      let cache := if cache.length ≥ cacheSize then cache.tail else cache
      (v, cache ++ [(key, v)], true)

/-- Run a sequence of accesses against the cache, returning the final
cache together with the per-access evaluation flags. -/
def cachedRun {α : Type} (seq : Nat → α) (cacheSize : Nat) :
    List Nat → List (Nat × α) → List (Nat × α) × List Bool
  | [], cache => (cache, [])
  | k :: ks, cache =>
      let (_, cache, ev) := cachedGet seq cacheSize cache k
      let (cache, evs) := cachedRun seq cacheSize ks cache
      (cache, ev :: evs)

/-- Embedding of `CachedSequence.__iter__` (lines 318-320): it returns
`iter(self.sequence)` — a plain pass over the wrapped sequence that
never consults or updates the cache. -/
def cachedIter {α : Type} (seq : Nat → α) (n : Nat) : List α :=
  (List.range n).map seq

/-! ## Error model (seqtools/errors.py and `reraise_err`)

The process-wide error mode is the thread-local flag
`error_config.passthrough`, embedded as a boolean
(`true` = passthrough, `false` = wrap). -/

/-- An error value carried back from a worker: either the original
exception (transportable) or its string form (when the original could
not be serialized). -/
inductive ErrVal where
  | exc (name : String)
  | str (s : String)
deriving Repr, DecidableEq

/-- What the consumer-side raising path ends up raising. -/
inductive Raised where
  | evaluationError (msg : String) (cause : Option ErrVal)
  | original (name : String)
  | valueError (msg : String)
deriving Repr, DecidableEq

/-- Embedding of `seterr` (seqtools/errors.py, lines 14-31).  It
mutates the mode flag according to its `evaluation` argument (whose
Python default is `'wrap'`) and, like every Python function without a
`return`, returns `None` — embedded as the constantly-`none` second
component. -/
def seterr (evaluation : String) (_cfg : Bool) :
    Except PyExn (Bool × Option String) :=
  if evaluation = "wrap" then .ok (false, none)
  else if evaluation = "passthrough" then .ok (true, none)
  else .error (.valueError "evaluation must be 'wrap' or 'passthrough'")

/-- Embedding of `reraise_err` (seqtools/evaluation.py, lines 417-432),
the consumer-side raising path of `Prefetch.__getitem__`.  Note that
the source tests `seterr() == "passthrough"`: the call runs with the
default argument `'wrap'`, so it resets the mode flag and returns
`None`.  Result: what is raised, paired with the mode flag after the
call. -/
def reraiseErr (item : Int) (error : ErrVal) (stackDesc : Option String)
    (cfg : Bool) : Raised × Bool :=
  let msg := "failed to evaluate item " ++ toString item
  let msg := match stackDesc with
    | some d => msg ++ " in prefetch created at :\n" ++ d
    | none => msg
  match error with
  | .str s => (.evaluationError (msg ++ "\n\noriginal error was:\n" ++ s) none, cfg)
  | .exc e =>
      match seterr "wrap" cfg with
      | .ok (cfg', ret) =>
          if ret = some "passthrough" then (.original e, cfg')
          else (.evaluationError msg (some (.exc e)), cfg')
      | .error _ => (.valueError "evaluation must be 'wrap' or 'passthrough'", cfg)

/-! ## The `prefetch` entry point (seqtools/evaluation.py, lines 486-554) -/

/-- What `prefetch` returns: the source sequence itself (the
`nworkers == 0` branch) or a `Prefetch` object over a backend with the
given worker count and ring size. -/
inductive PrefetchResult where
  | plainSeq
  | prefetched (numWorkers : Int) (bufferSize : Int)
deriving Repr, DecidableEq

/-- Worker-count resolution shared by `ThreadBackend.__init__`
(lines 355-359), `ProcessBackend.__init__` (lines 44-48) and
`SHMProcessBacked.__init__`: a nonpositive request becomes
`cpu_count() - num_workers`, and a resulting count `≤ 0` raises. -/
def resolveNumWorkers (numWorkers cpuCount : Int) : Except String Int :=
  let n := if numWorkers ≤ 0 then cpuCount - numWorkers else numWorkers
  if n ≤ 0 then .error "at least one worker required" else .ok n

/-- Embedding of `prefetch` (seqtools/evaluation.py, lines 537-554):
`nworkers == 0` short-circuits to the source sequence; otherwise a
backend is built (resolving the worker count) and wrapped in a
`Prefetch` whose ring size is `max_buffered` (halved for the
`sharedmem` method). -/
def prefetchFn (nworkers : Int) (method : String) (maxBuffered : Int)
    (cpuCount : Int) : Except String PrefetchResult :=
  if nworkers = 0 then .ok .plainSeq
  else if method = "thread" ∨ method = "process" then
    (resolveNumWorkers nworkers cpuCount).map fun n => .prefetched n maxBuffered
  else if method = "sharedmem" then
    match resolveNumWorkers nworkers cpuCount with
    | .error e => .error e
    | .ok n =>
        if maxBuffered < n then .error "at least one buffer slot required by worker"
        else .ok (.prefetched n (maxBuffered / 2))
  else .error "invalid prefetching method"

/-! ## BufferRecycler and SHM job submission
(seqtools/evaluation.py, lines 169-258) -/

/-- State of the `BufferRecycler`: the queue of free slot indices, plus
the slot indices whose last consumer reference has been dropped but
whose finalizer only runs at the next garbage-collection pass.  A
`gc.collect()` flushes the latter into the free queue. -/
structure Recycler where
  free : List Nat
  collectable : List Nat
deriving Repr, DecidableEq

/-- Embedding of `BufferRecycler.fetch` (lines 181-195): pop a free
slot; if the queue is empty, run exactly one `gc.collect()` pass and
retry; if still empty, raise `MemoryError`. -/
def recyclerFetch (r : Recycler) : Except String (Nat × Recycler) :=
  match r.free with
  | i :: rest => .ok (i, { r with free := rest })
  | [] =>
      match r.collectable with
      | [] => .error "none of the buffers has been release yet."
      | i :: rest => .ok (i, { free := rest, collectable := [] })

/-- State of the `SHMProcessBacked` parent: the recycler, the job
queue of `(item, slot)` pairs, the liveness of each worker and the
`result_buffers` map from in-flight item index to its arena slot. -/
structure SHMState where
  recycler : Recycler
  jobQueue : List (Int × Nat)
  workersAlive : List Bool
  resultBuffers : List (Int × Nat)
deriving Repr, DecidableEq

/-- Errors raised by `SHMProcessBacked.submit_job`. -/
inductive SubmitErr where
  | workerDied
  | bufferExhausted (msg : String)
deriving Repr, DecidableEq

/-- Embedding of `SHMProcessBacked.submit_job` (lines 250-258): fetch
an arena slot; on `MemoryError`, re-raise as a fatal worker-died error
when some worker is dead, and as the buffer-exhausted error otherwise
— in either case without touching the job queue or the buffer map
(the Python tuple assignment fails before assigning).  On success,
record the buffer and enqueue `(item, slot)`.  The state is returned
on the error paths too, since the Python object survives the raise. -/
def submitJob (item : Int) (st : SHMState) : Except SubmitErr Unit × SHMState :=
  match recyclerFetch st.recycler with
  | .error e =>
      if st.workersAlive.any (fun a => !a) then (.error .workerDied, st)
      else (.error (.bufferExhausted e), st)
  | .ok (slot, r') =>
      (.ok (), { st with
        recycler := r'
        resultBuffers := st.resultBuffers ++ [(item, slot)]
        jobQueue := st.jobQueue ++ [(item, slot)] })

/-! ## The Prefetch scheduler (seqtools/evaluation.py, lines 435-483)

`Prefetch` drives an asynchronous backend.  All three backends share
the same observable protocol: `submit_job(item)` enqueues an item
index and `wait_completion()` blocks until some worker finishes,
returning `(idx, success, value)` where the worker computed
`value = seq[idx]` (or caught the exception).  Workers run
concurrently, so completions arrive in an arbitrary order: the
embedding keeps the multiset of in-flight jobs in `pending` and lets
an oracle choose which in-flight job completes next.  A job with a
negative index is consumed as a termination sentinel by the receiving
worker, which exits without producing any completion.

`log` is a ghost field recording every submitted job (never read by
the embedded code), and `oracle` is the adversarial completion
schedule. -/

/-- Scheduler + backend state for `Prefetch` over a source of length
`n`.  `jobs` and `completed` embed `Prefetch.jobs` and
`Prefetch.completed`; `pending` is the multiset of jobs submitted to
the backend whose completions have not yet been drained. -/
structure Sched (α : Type) where
  jobs : List Int
  completed : List (Int × Except String α)
  pending : List Int
  log : List Int
  oracle : List Nat
deriving Repr

/-- Python dict assignment `d[k] = v`: overwrite in place when the key
exists, else append. -/
def dictInsert {κ β : Type} [DecidableEq κ] (c : List (κ × β)) (k : κ) (v : β) :
    List (κ × β) :=
  if (dictLookup c k).isSome then
    c.map (fun p => if p.1 = k then (k, v) else p)
  else c ++ [(k, v)]

/-- Removal of a key from an association list (first occurrence). -/
def dictErase {κ β : Type} [DecidableEq κ] : List (κ × β) → κ → List (κ × β)
  | [], _ => []
  | p :: t, k => if p.1 = k then t else p :: dictErase t k

/-- Python `d.pop(k)`: the stored value and the dict without `k`. -/
def dictPop {κ β : Type} [DecidableEq κ] (c : List (κ × β)) (k : κ) :
    Option (β × List (κ × β)) :=
  match dictLookup c k with
  | some v => some (v, dictErase c k)
  | none => none

/-- What a worker computes for job index `idx`: `seq[idx]` — the
source `f` itself may fail (user code), and an index outside
`[0, n)` raises `IndexError` in the upstream view.  This is the
`try: value = seq[idx] except ...` block shared by
`ThreadBackend.worker`, `ProcessBackend.worker` and
`SHMProcessBacked.worker`; `success` is `(evalSeq ...).isOk`. -/
def evalSeq {α : Type} (n : Nat) (f : Nat → Except String α) (idx : Int) :
    Except String α :=
  if 0 ≤ idx ∧ idx < (n : Int) then f idx.toNat else .error "index out of range"

/-- Embedding of the job loop of `ThreadBackend.worker` (lines
388-412) — `ProcessBackend.worker` (lines 105-147) has the same
shape, sending through a pipe instead of the done queue.  The worker
takes jobs in order from its queue; a negative index is the stop
sentinel: the worker returns at once, emitting no completion for it
(nor for anything after it). -/
def workerRun {α : Type} (n : Nat) (f : Nat → Except String α) :
    List Int → List (Int × Except String α)
  | [] => []
  | idx :: rest =>
      if idx < 0 then []
      else (idx, evalSeq n f idx) :: workerRun n f rest

/-- `backend.submit_job(i)`: the job joins the in-flight multiset (and
the ghost submission log). -/
def schedSubmit {α : Type} (i : Int) (s : Sched α) : Sched α :=
  { s with pending := s.pending ++ [i], log := s.log ++ [i] }

/-- Submit a batch of jobs in order. -/
def schedSubmitAll {α : Type} (l : List Int) (s : Sched α) : Sched α :=
  l.foldl (fun s i => schedSubmit i s) s

/-- One `backend.wait_completion()`.  The oracle picks which in-flight
job finishes next; a sentinel (negative) job kills its worker without
a completion, so the wait goes on.  `none` models blocking forever
(no in-flight job can ever complete).  The fuel is the number of
in-flight jobs, which bounds the number of sentinel skips. -/
def waitLoop {α : Type} (n : Nat) (f : Nat → Except String α) :
    Nat → List Nat → List Int →
    Option ((Int × Except String α) × List Int × List Nat)
  | 0, _, _ => none
  | fuel + 1, o, p =>
      if p.isEmpty then none
      else
        let k := o.headD 0 % p.length
        let j := p.getD k 0
        let p' := p.eraseIdx k
        if j < 0 then waitLoop n f fuel o.tail p'
        else some ((j, evalSeq n f j), p', o.tail)

/-- `wait_completion` on the scheduler state. -/
def waitCompletion {α : Type} (n : Nat) (f : Nat → Except String α)
    (s : Sched α) : Option ((Int × Except String α) × Sched α) :=
  (waitLoop n f s.pending.length s.oracle s.pending).map
    fun (c, p', o') => (c, { s with pending := p', oracle := o' })

/-- The first loop of the non-monotonic branch of
`Prefetch.__getitem__` (lines 459-461): wait for — and discard —
`count` completions. -/
def drainN {α : Type} (n : Nat) (f : Nat → Except String α) :
    Nat → Sched α → Option (Sched α)
  | 0, s => some s
  | count + 1, s =>
      match waitCompletion n f s with
      | none => none
      | some (_, s') => drainN n f count s'

/-- The `while item not in self.completed` loop (lines 470-472): draw
completions, recording each in `completed`, until the requested item
is there.  Fueled by the number of in-flight jobs at entry; running
out of fuel with the item still missing models blocking forever. -/
def drainUntil {α : Type} (n : Nat) (f : Nat → Except String α) (item : Int) :
    Nat → Sched α → Option (Sched α)
  | 0, s => if (dictLookup s.completed item).isSome then some s else none
  | fuel + 1, s =>
      if (dictLookup s.completed item).isSome then some s
      else
        match waitCompletion n f s with
        | none => none
        | some ((j, pl), s') =>
            drainUntil n f item fuel { s' with completed := dictInsert s'.completed j pl }

/-- The integer range `list(range(item, item + b))`. -/
def intRange (a : Int) (b : Nat) : List Int :=
  (List.range b).map fun k : Nat => a + (k : Int)

/-- The non-monotonic branch of `Prefetch.__getitem__` (lines
459-467): when the requested item is not the ring head, wait for every
in-flight job (`len(jobs) - len(completed)` of them, discarding the
results), clear the completion buffer, and resubmit the whole ring as
`range(item, item + len(jobs))`. -/
def prefetchReset {α : Type} (n : Nat) (f : Nat → Except String α)
    (item : Int) (s : Sched α) : Option (Sched α) :=
  if s.jobs.head? ≠ some item then do
    let s1 ← drainN n f (s.jobs.length - s.completed.length) s
    let newJobs := intRange item s.jobs.length
    pure (schedSubmitAll newJobs { s1 with completed := [], jobs := newJobs })
  else pure s

/-- The tail of `Prefetch.__getitem__` (lines 474-483): submit the
refill job `item + len(jobs)`, append it to the ring, pop the ring
head and the requested completion, and hand its payload back. -/
def prefetchFinish {α : Type} (item : Int) (s : Sched α) :
    Option (Except String α × Sched α) :=
  let refill := item + (s.jobs.length : Int)
  let s := schedSubmit refill s
  let s := { s with jobs := (s.jobs ++ [refill]).tail }
  match dictPop s.completed item with
  | some (pl, completed) => some (pl, { s with completed := completed })
  | none => none

/-- Embedding of `Prefetch.__getitem__` (lines 457-483).  The result
is the completion payload for `item` (`.ok v` is returned, `.error`
goes to `reraise_err`) together with the successor state; `none`
models an execution that blocks forever inside a wait.  There is no
bounds check of any kind on `item`. -/
def prefetchGetitem {α : Type} (n : Nat) (f : Nat → Except String α)
    (item : Int) (s : Sched α) : Option (Except String α × Sched α) := do
  -- non-monotonic request: drain in-flight work, then rebuild the ring
  let s ← prefetchReset n f item s
  -- retrieve item, buffer other results
  let s ← drainUntil n f item s.pending.length s
  -- refill one slot ahead, pop the ring head and return the value
  prefetchFinish item s

/-- Embedding of `Prefetch.__init__` (lines 438-448): submit one job
per ring slot for items `0, …, buffer_size - 1`. -/
def prefetchInit (α : Type) (bufferSize : Nat) (oracle : List Nat) : Sched α :=
  schedSubmitAll (intRange 0 bufferSize)
    { jobs := intRange 0 bufferSize, completed := [], pending := [],
      log := [], oracle := oracle }

/-- Run a whole access pattern through the prefetcher, collecting the
returned payloads. -/
def prefetchRun {α : Type} (n : Nat) (f : Nat → Except String α) :
    List Int → Sched α → Option (List (Except String α) × Sched α)
  | [], s => some ([], s)
  | i :: is, s => do
      let (pl, s) ← prefetchGetitem n f i s
      let (pls, s) ← prefetchRun n f is s
      pure (pl :: pls, s)

/-! ## Ghost observers used by the statements -/

/-- Keys of an association list, in insertion order. -/
def keys {κ β : Type} (c : List (κ × β)) : List κ := c.map Prod.fst

/-- Every buffered completion holds exactly what the worker computed
for its item index. -/
def completedOk {α : Type} (n : Nat) (f : Nat → Except String α)
    (c : List (Int × Except String α)) : Prop :=
  ∀ p ∈ c, p.2 = evalSeq n f p.1

/-- The reachable-state invariant of the prefetch scheduler: the ring
`jobs` is a block of `b` consecutive nonnegative indices, the
completion buffer has pairwise-distinct keys drawn from the ring and
correct payloads, and the in-flight jobs are exactly the ring entries
whose completions have not been drained, in ring order. -/
def SchedInv {α : Type} (n : Nat) (f : Nat → Except String α) (b : Nat)
    (s : Sched α) : Prop :=
  (∃ a : Nat, s.jobs = intRange (a : Int) b) ∧
  (keys s.completed).Nodup ∧
  (∀ x ∈ keys s.completed, x ∈ s.jobs) ∧
  completedOk n f s.completed ∧
  s.pending = s.jobs.filter (fun j => (dictLookup s.completed j).isNone)

/-! ## Helper lemmas -/

theorem dictLookup_nil {κ β : Type} [DecidableEq κ] (k : κ) :
    dictLookup ([] : List (κ × β)) k = none := rfl

theorem dictLookup_isSome_iff {κ β : Type} [DecidableEq κ]
    (c : List (κ × β)) (k : κ) : (dictLookup c k).isSome ↔ k ∈ keys c := by
  induction c with
  | nil => simp [dictLookup, keys]
  | cons p t ih =>
      by_cases h : p.1 = k
      · simp [dictLookup, h, keys]
      · simpa [dictLookup, h, keys, Ne.symm h] using ih

theorem dictLookup_eq_none_iff {κ β : Type} [DecidableEq κ]
    (c : List (κ × β)) (k : κ) : dictLookup c k = none ↔ k ∉ keys c := by
  rw [← dictLookup_isSome_iff]
  cases dictLookup c k <;> simp

theorem dictLookup_append_fresh {κ β : Type} [DecidableEq κ]
    (c : List (κ × β)) (k x : κ) (v : β) (hx : dictLookup c k = none) :
    dictLookup (c ++ [(k, v)]) x = if x = k then some v else dictLookup c x := by
  induction c with
  | nil => simp [dictLookup, eq_comm]
  | cons p t ih =>
      have hx' : dictLookup t k = none := by
        by_cases hp : p.1 = k <;> simp [dictLookup, hp] at hx ⊢
        exact hx
      by_cases hp : p.1 = x
      · have : ¬ x = k := by
          intro h
          subst h hp
          simp [dictLookup] at hx
        simp [dictLookup, hp, this]
      · simp [dictLookup, hp, ih hx']

theorem dictLookup_of_mem {κ β : Type} [DecidableEq κ]
    (c : List (κ × β)) (g : κ → β) (hc : ∀ p ∈ c, p.2 = g p.1) (k : κ) (v : β)
    (h : dictLookup c k = some v) : v = g k := by
  induction c with
  | nil => simp [dictLookup] at h
  | cons p t ih =>
      by_cases hp : p.1 = k
      · simp only [dictLookup, hp, if_true, Option.some.injEq] at h
        subst hp h
        exact hc p (by simp)
      · simp only [dictLookup, hp, if_false] at h
        exact ih (fun q hq => hc q (by simp [hq])) h

theorem dictInsert_fresh {κ β : Type} [DecidableEq κ]
    (c : List (κ × β)) (k : κ) (v : β) (h : dictLookup c k = none) :
    dictInsert c k v = c ++ [(k, v)] := by
  simp [dictInsert, h]

theorem keys_append {κ β : Type} (c d : List (κ × β)) :
    keys (c ++ d) = keys c ++ keys d := by simp [keys]

theorem dictLookup_erase {κ β : Type} [DecidableEq κ]
    (c : List (κ × β)) (k x : κ) (hk : (keys c).Nodup) :
    dictLookup (dictErase c k) x = if x = k then none else dictLookup c x := by
  induction c with
  | nil => simp [dictLookup, dictErase]
  | cons p t ih =>
      have hk' : (keys t).Nodup := (List.nodup_cons.mp hk).2
      have hpk : p.1 ∉ keys t := (List.nodup_cons.mp hk).1
      by_cases hp : p.1 = k
      · rw [show dictErase (p :: t) k = t by simp [dictErase, hp]]
        by_cases hx : x = k
        · rw [if_pos hx, dictLookup_eq_none_iff]
          rw [show x = p.1 from hx.trans hp.symm]
          exact hpk
        · have hpx : ¬ p.1 = x := fun h => hx (h ▸ hp)
          rw [if_neg hx]
          simp [dictLookup, hpx]
      · rw [show dictErase (p :: t) k = p :: dictErase t k by simp [dictErase, hp]]
        by_cases hpx : p.1 = x
        · have hxk : ¬ x = k := fun h => hp (hpx.trans h)
          simp [dictLookup, hpx, hxk]
        · simp [dictLookup, hpx, ih hk']

theorem intRange_length (a : Int) (b : Nat) : (intRange a b).length = b := by
  unfold intRange
  rw [List.length_map, List.length_range]

theorem mem_intRange {a x : Int} {b : Nat} :
    x ∈ intRange a b ↔ a ≤ x ∧ x < a + b := by
  unfold intRange
  rw [List.mem_map]
  constructor
  · rintro ⟨k, hk, rfl⟩
    rw [List.mem_range] at hk
    omega
  · rintro ⟨h1, h2⟩
    exact ⟨(x - a).toNat, List.mem_range.mpr (by omega), by omega⟩

theorem intRange_nodup (a : Int) (b : Nat) : (intRange a b).Nodup := by
  have hinj : Function.Injective (fun k : Nat => a + (k : Int)) := by
    intro x y h
    simp only at h
    omega
  exact (List.nodup_range b).map hinj

theorem intRange_succ (a : Int) (b : Nat) :
    intRange a (b + 1) = intRange a b ++ [a + b] := by
  unfold intRange
  rw [List.range_succ, List.map_append]
  rfl

theorem intRange_cons (a : Int) (b : Nat) :
    intRange a (b + 1) = a :: intRange (a + 1) b := by
  unfold intRange
  rw [List.range_succ_eq_map, List.map_cons, List.map_map]
  congr 1
  · omega
  · apply List.map_congr_left
    intro k _
    simp only [Function.comp_apply]
    omega

theorem intRange_head (a : Int) (b : Nat) (hb : 1 ≤ b) :
    (intRange a b).head? = some a := by
  obtain ⟨b', rfl⟩ : ∃ b', b = b' + 1 := ⟨b - 1, by omega⟩
  rw [intRange_cons]
  rfl

theorem intRange_nonneg (a : Nat) (b : Nat) (x : Int)
    (h : x ∈ intRange (a : Int) b) : 0 ≤ x := by
  rcases mem_intRange.mp h with ⟨h1, _⟩
  omega

/-- With no duplicates, removing the element at position `k` is the
same as filtering it out by value. -/
theorem eraseIdx_eq_filter_of_nodup (l : List Int) (hl : l.Nodup) (k : Nat)
    (hk : k < l.length) :
    l.eraseIdx k = l.filter (fun x => decide (x ≠ l.getD k 0)) := by
  induction l generalizing k with
  | nil => simp at hk
  | cons a t ih =>
      have hat : a ∉ t := (List.nodup_cons.mp hl).1
      have ht : t.Nodup := (List.nodup_cons.mp hl).2
      cases k with
      | zero =>
          have h0 : (a :: t).getD 0 0 = a := rfl
          rw [h0, show (a :: t).eraseIdx 0 = t from rfl, List.filter_cons,
            if_neg (by simp)]
          symm
          apply List.filter_eq_self.mpr
          intro x hx
          simp only [ne_eq, decide_eq_true_eq]
          exact fun h => hat (h ▸ hx)
      | succ k =>
          have hk' : k < t.length := by simpa using hk
          have hmem : t.getD k 0 ∈ t := by
            rw [List.getD_eq_getElem t 0 hk']
            exact t.getElem_mem hk'
          have hane : a ≠ t.getD k 0 := fun h => hat (h ▸ hmem)
          have hgd : (a :: t).getD (k + 1) 0 = t.getD k 0 := rfl
          rw [hgd, show (a :: t).eraseIdx (k + 1) = a :: t.eraseIdx k from rfl,
            List.filter_cons, if_pos (by simpa using hane), ih ht k hk']

/-! ## Scheduler invariant -/

theorem SchedInv.jobs_length {α : Type} {n : Nat} {f : Nat → Except String α}
    {b : Nat} {s : Sched α} (h : SchedInv n f b s) : s.jobs.length = b := by
  obtain ⟨⟨a, ha⟩, -, -, -, -⟩ := h
  rw [ha, intRange_length]

theorem SchedInv.jobs_nonneg {α : Type} {n : Nat} {f : Nat → Except String α}
    {b : Nat} {s : Sched α} (h : SchedInv n f b s) :
    ∀ j ∈ s.jobs, 0 ≤ j := by
  obtain ⟨⟨a, ha⟩, -, -, -, -⟩ := h
  intro j hj
  rw [ha] at hj
  exact intRange_nonneg a b j hj

theorem SchedInv.jobs_nodup {α : Type} {n : Nat} {f : Nat → Except String α}
    {b : Nat} {s : Sched α} (h : SchedInv n f b s) : s.jobs.Nodup := by
  obtain ⟨⟨a, ha⟩, -, -, -, -⟩ := h
  rw [ha]
  exact intRange_nodup _ _

theorem SchedInv.pending_nonneg {α : Type} {n : Nat} {f : Nat → Except String α}
    {b : Nat} {s : Sched α} (h : SchedInv n f b s) :
    ∀ j ∈ s.pending, 0 ≤ j := by
  intro j hj
  rw [h.2.2.2.2] at hj
  exact h.jobs_nonneg j (List.mem_of_mem_filter hj)

theorem SchedInv.pending_length_le {α : Type} {n : Nat}
    {f : Nat → Except String α} {b : Nat} {s : Sched α} (h : SchedInv n f b s) :
    s.pending.length ≤ b := by
  rw [h.2.2.2.2]
  calc (s.jobs.filter _).length ≤ s.jobs.length := List.length_filter_le _ _
    _ = b := h.jobs_length

/-- Counting: with distinct keys all coming from the (duplicate-free)
ring, the undrained entries number `|jobs| - |completed|`. -/
theorem length_filter_notDone {α : Type} (jobs : List Int)
    (c : List (Int × Except String α)) (hnj : jobs.Nodup)
    (hkn : (keys c).Nodup) (hsub : ∀ x ∈ keys c, x ∈ jobs) :
    (jobs.filter (fun j => (dictLookup c j).isNone)).length
      = jobs.length - c.length := by
  induction c with
  | nil =>
      simp only [dictLookup_nil, Option.isNone_none, List.filter_true,
        List.length_nil, Nat.sub_zero]
  | cons p t ih =>
      have hpt : p.1 ∉ keys t := (List.nodup_cons.mp hkn).1
      have htn : (keys t).Nodup := (List.nodup_cons.mp hkn).2
      have hpj : p.1 ∈ jobs := hsub p.1 (by simp [keys])
      have hsub' : ∀ x ∈ keys t, x ∈ jobs := fun x hx =>
        hsub x (by simp [keys] at hx ⊢; exact Or.inr hx)
      have hpoint : ∀ j, (dictLookup (p :: t) j).isNone
          = (decide (j ≠ p.1) && (dictLookup t j).isNone) := by
        intro j
        by_cases hj : p.1 = j
        · subst hj
          simp [dictLookup]
        · simp [dictLookup, hj, Ne.symm hj]
      have hmemfilter : p.1 ∈ jobs.filter (fun j => (dictLookup t j).isNone) := by
        rw [List.mem_filter]
        exact ⟨hpj, by simp [(dictLookup_eq_none_iff t p.1).mpr hpt]⟩
      have hnodupfilter : (jobs.filter
          (fun j => (dictLookup t j).isNone)).Nodup := hnj.filter _
      calc (jobs.filter (fun j => (dictLookup (p :: t) j).isNone)).length
          = (jobs.filter (fun j =>
              decide (j ≠ p.1) && (dictLookup t j).isNone)).length := by
            rw [List.filter_congr (fun j _ => hpoint j)]
        _ = ((jobs.filter (fun j => (dictLookup t j).isNone)).filter
              (fun j => decide (j ≠ p.1))).length := by
            rw [List.filter_filter]
        _ = ((jobs.filter (fun j => (dictLookup t j).isNone)).filter
              (fun j => j != p.1)).length := by
            refine congrArg List.length (List.filter_congr ?_)
            intro x _
            by_cases h : x = p.1 <;> simp [bne, h]
        _ = ((jobs.filter (fun j => (dictLookup t j).isNone)).erase p.1).length := by
            rw [hnodupfilter.erase_eq_filter]
        _ = (jobs.filter (fun j => (dictLookup t j).isNone)).length - 1 := by
            rw [List.length_erase_of_mem hmemfilter]
        _ = jobs.length - t.length - 1 := by
            rw [ih htn hsub']
        _ = jobs.length - (t.length + 1) := by omega
        _ = jobs.length - (p :: t).length := by simp

/-! ## Backend step lemmas -/

theorem waitCompletion_step {α : Type} (n : Nat) (f : Nat → Except String α)
    (s : Sched α) (hne : s.pending ≠ []) (hnn : ∀ j ∈ s.pending, 0 ≤ j) :
    ∃ k, k < s.pending.length ∧
      waitCompletion n f s =
        some ((s.pending.getD k 0, evalSeq n f (s.pending.getD k 0)),
          { s with pending := s.pending.eraseIdx k, oracle := s.oracle.tail }) := by
  obtain ⟨m, hm⟩ : ∃ m, s.pending.length = m + 1 := by
    cases hp : s.pending with
    | nil => exact absurd hp hne
    | cons x t => exact ⟨t.length, by simp [hp]⟩
  refine ⟨s.oracle.headD 0 % s.pending.length, by
    rw [hm]; exact Nat.mod_lt _ (Nat.succ_pos m), ?_⟩
  have hempty : s.pending.isEmpty = false := by
    cases hp : s.pending with
    | nil => exact absurd hp hne
    | cons x t => rfl
  have hk : s.oracle.headD 0 % s.pending.length < s.pending.length := by
    rw [hm]; exact Nat.mod_lt _ (Nat.succ_pos m)
  have hget : s.pending.getD (s.oracle.headD 0 % s.pending.length) 0 ∈ s.pending := by
    rw [List.getD_eq_getElem s.pending 0 hk]
    exact s.pending.getElem_mem hk
  have hj : ¬ s.pending.getD (s.oracle.headD 0 % s.pending.length) 0 < 0 := by
    have := hnn _ hget
    omega
  unfold waitCompletion
  rw [hm]
  unfold waitLoop
  rw [hm] at hj ⊢
  simp only [hempty, if_false, hj, Bool.false_eq_true]
  rfl

theorem waitLoop_result_nonneg {α : Type} (n : Nat) (f : Nat → Except String α) :
    ∀ (fuel : Nat) (o : List Nat) (p : List Int) (j : Int)
      (pl : Except String α) (p' : List Int) (o' : List Nat),
      waitLoop n f fuel o p = some ((j, pl), p', o') → 0 ≤ j := by
  intro fuel
  induction fuel with
  | zero => intro o p j pl p' o' h; simp [waitLoop] at h
  | succ fuel ih =>
      intro o p j pl p' o' h
      unfold waitLoop at h
      by_cases hp : p.isEmpty
      · simp [hp] at h
      · simp only [hp, Bool.false_eq_true, if_false] at h
        by_cases hneg : p.getD (o.headD 0 % p.length) 0 < 0
        · rw [if_pos hneg] at h
          exact ih _ _ _ _ _ _ h
        · rw [if_neg hneg] at h
          simp only [Option.some.injEq, Prod.mk.injEq] at h
          obtain ⟨⟨hj, -⟩, -⟩ := h.1, h.2
          omega

theorem dictLookup_overwrite_ne {κ β : Type} [DecidableEq κ]
    (t : List (κ × β)) (k x : κ) (v : β) (hx : ¬ x = k) :
    dictLookup (t.map fun p => if p.1 = k then (k, v) else p) x
      = dictLookup t x := by
  induction t with
  | nil => rfl
  | cons p t ih =>
      by_cases hp : p.1 = k
      · have h1 : ¬ k = x := fun h => hx h.symm
        have h2 : ¬ p.1 = x := fun h => hx (hp ▸ h).symm
        simp [dictLookup, hp, h1, h2, ih]
      · by_cases hpx : p.1 = x <;> simp [dictLookup, hp, hpx, hx, ih]

theorem dictLookup_overwrite_eq {κ β : Type} [DecidableEq κ]
    (t : List (κ × β)) (k : κ) (v : β) (hfresh : (dictLookup t k).isSome) :
    dictLookup (t.map fun p => if p.1 = k then (k, v) else p) k = some v := by
  induction t with
  | nil => simp [dictLookup] at hfresh
  | cons p t ih =>
      by_cases hp : p.1 = k
      · simp [dictLookup, hp]
      · have h1 : (dictLookup t k).isSome := by
          simpa [dictLookup, hp] using hfresh
        simp [dictLookup, hp, ih h1]

theorem dictLookup_insert {κ β : Type} [DecidableEq κ]
    (c : List (κ × β)) (k x : κ) (v : β) :
    dictLookup (dictInsert c k v) x = if x = k then some v else dictLookup c x := by
  by_cases hfresh : (dictLookup c k).isSome
  · unfold dictInsert
    rw [if_pos hfresh]
    by_cases hx : x = k
    · subst hx
      rw [if_pos rfl]
      exact dictLookup_overwrite_eq c x v hfresh
    · rw [if_neg hx]
      exact dictLookup_overwrite_ne c k x v hx
  · have hnone : dictLookup c k = none := by
      cases h : dictLookup c k with
      | none => rfl
      | some v' => rw [h] at hfresh; simp at hfresh
    rw [dictInsert_fresh c k v hnone, dictLookup_append_fresh c k x v hnone]

theorem dictErase_sublist {κ β : Type} [DecidableEq κ]
    (c : List (κ × β)) (k : κ) : (dictErase c k).Sublist c := by
  induction c with
  | nil => simp [dictErase]
  | cons p t ih =>
      by_cases hp : p.1 = k
      · rw [show dictErase (p :: t) k = t by simp [dictErase, hp]]
        exact (List.sublist_cons_self p t)
      · rw [show dictErase (p :: t) k = p :: dictErase t k by simp [dictErase, hp]]
        exact ih.cons₂ p

/-- `drainN` consumes exactly `count` completions: the in-flight list
shrinks by `count` and nothing else changes (the draws are
discarded). -/
theorem drainN_spec {α : Type} (n : Nat) (f : Nat → Except String α) :
    ∀ (count : Nat) (s : Sched α), (∀ j ∈ s.pending, 0 ≤ j) →
      count ≤ s.pending.length →
      ∃ s', drainN n f count s = some s' ∧ s'.jobs = s.jobs ∧
        s'.completed = s.completed ∧ s'.log = s.log ∧
        s'.pending.length = s.pending.length - count ∧
        (∀ j ∈ s'.pending, 0 ≤ j) := by
  intro count
  induction count with
  | zero =>
      intro s hnn hle
      exact ⟨s, rfl, rfl, rfl, rfl, by omega, hnn⟩
  | succ count ih =>
      intro s hnn hle
      have hne : s.pending ≠ [] := by
        intro h
        rw [h] at hle
        simp at hle
      obtain ⟨k, hk, hstep⟩ := waitCompletion_step n f s hne hnn
      have hlen : (s.pending.eraseIdx k).length = s.pending.length - 1 := by
        rw [List.length_eraseIdx]
        simp [hk]
      have hsub : (s.pending.eraseIdx k).Sublist s.pending :=
        List.eraseIdx_sublist s.pending k
      obtain ⟨s', h1, h2, h3, h4, h5, h6⟩ := ih
        { s with pending := s.pending.eraseIdx k, oracle := s.oracle.tail }
        (fun j hj => hnn j (hsub.mem hj)) (by simp [hlen]; omega)
      refine ⟨s', ?_, h2, h3, h4, by simp at h5; omega, h6⟩
      unfold drainN
      rw [hstep]
      exact h1

/-- `drainUntil` terminates with the requested item's completion
recorded, preserving the invariant, the ring and the submission
log. -/
theorem drainUntil_spec {α : Type} (n : Nat) (f : Nat → Except String α)
    (b : Nat) (item : Int) :
    ∀ (fuel : Nat) (s : Sched α), SchedInv n f b s → item ∈ s.jobs →
      s.pending.length ≤ fuel →
      ∃ s', drainUntil n f item fuel s = some s' ∧ SchedInv n f b s' ∧
        s'.jobs = s.jobs ∧ s'.log = s.log ∧
        dictLookup s'.completed item = some (evalSeq n f item) := by
  intro fuel
  induction fuel with
  | zero =>
      intro s hInv hitem hle
      have hpe : s.pending = [] := by
        have := hle
        cases h : s.pending with
        | nil => rfl
        | cons x t => rw [h] at this; simp at this
      have hfe : s.jobs.filter (fun j => (dictLookup s.completed j).isNone) = [] := by
        rw [← hInv.2.2.2.2]
        exact hpe
      have hsome : (dictLookup s.completed item).isSome := by
        have hnot := List.filter_eq_nil_iff.mp hfe item hitem
        cases h : dictLookup s.completed item with
        | none => exact absurd (by simp [h]) hnot
        | some v => simp
      obtain ⟨v, hv⟩ := Option.isSome_iff_exists.mp hsome
      refine ⟨s, by simp [drainUntil, hsome], hInv, rfl, rfl, ?_⟩
      rw [hv, dictLookup_of_mem s.completed (evalSeq n f) hInv.2.2.2.1 item v hv]
  | succ fuel ih =>
      intro s hInv hitem hle
      by_cases hsome : (dictLookup s.completed item).isSome
      · obtain ⟨v, hv⟩ := Option.isSome_iff_exists.mp hsome
        refine ⟨s, by simp [drainUntil, hsome], hInv, rfl, rfl, ?_⟩
        rw [hv, dictLookup_of_mem s.completed (evalSeq n f) hInv.2.2.2.1 item v hv]
      · -- the requested item is still in flight: draw one completion
        have hnone : dictLookup s.completed item = none := by
          cases h : dictLookup s.completed item with
          | none => rfl
          | some v => rw [h] at hsome; simp at hsome
        have hpitem : item ∈ s.pending := by
          rw [hInv.2.2.2.2, List.mem_filter]
          exact ⟨hitem, by simp [hnone]⟩
        have hne : s.pending ≠ [] := fun h => by simp [h] at hpitem
        obtain ⟨k, hk, hstep⟩ := waitCompletion_step n f s hne hInv.pending_nonneg
        set j := s.pending.getD k 0 with hjdef
        have hjp : j ∈ s.pending := by
          rw [hjdef, List.getD_eq_getElem s.pending 0 hk]
          exact s.pending.getElem_mem hk
        have hjj : j ∈ s.jobs := by
          rw [hInv.2.2.2.2] at hjp
          exact List.mem_of_mem_filter hjp
        have hjnone : dictLookup s.completed j = none := by
          rw [hInv.2.2.2.2] at hjp
          have := (List.mem_filter.mp hjp).2
          cases h : dictLookup s.completed j with
          | none => rfl
          | some v => rw [h] at this; simp at this
        have hpnodup : s.pending.Nodup := by
          rw [hInv.2.2.2.2]
          exact hInv.jobs_nodup.filter _
        -- the new completion buffer
        set c' := dictInsert s.completed j (evalSeq n f j) with hc'
        have hc'app : c' = s.completed ++ [(j, evalSeq n f j)] :=
          dictInsert_fresh _ _ _ hjnone
        have hkeys' : keys c' = keys s.completed ++ [j] := by
          rw [hc'app, keys_append]; rfl
        have hjnotin : j ∉ keys s.completed :=
          (dictLookup_eq_none_iff _ _).mp hjnone
        have hkeysnodup : (keys c').Nodup := by
          rw [hkeys', List.nodup_append]
          refine ⟨hInv.2.1, List.nodup_singleton j, ?_⟩
          intro x hx hx'
          rw [List.mem_singleton] at hx'
          subst hx'
          exact hjnotin hx
        have hlookup' : ∀ x, dictLookup c' x
            = if x = j then some (evalSeq n f j) else dictLookup s.completed x :=
          fun x => dictLookup_insert s.completed j x (evalSeq n f j)
        -- the invariant for the successor state
        have hInv' : SchedInv n f b { s with
            pending := s.pending.eraseIdx k, oracle := s.oracle.tail,
            completed := c' } := by
          refine ⟨hInv.1, hkeysnodup, ?_, ?_, ?_⟩
          · intro x hx
            rw [hkeys', List.mem_append] at hx
            rcases hx with hx | hx
            · exact hInv.2.2.1 x hx
            · simp at hx
              exact hx ▸ hjj
          · intro p hp
            rw [hc'app, List.mem_append] at hp
            rcases hp with hp | hp
            · exact hInv.2.2.2.1 p hp
            · simp at hp
              rw [hp]
          · show s.pending.eraseIdx k = _
            rw [eraseIdx_eq_filter_of_nodup s.pending hpnodup k hk, ← hjdef]
            rw [hInv.2.2.2.2, List.filter_filter]
            refine List.filter_congr ?_
            intro x _
            rw [hlookup' x]
            by_cases hx : x = j <;> simp [hx]
        have hlen : (s.pending.eraseIdx k).length = s.pending.length - 1 := by
          rw [List.length_eraseIdx]
          simp [hk]
        obtain ⟨s', h1, h2, h3, h4, h5⟩ := ih _ hInv'
          (by simpa using hitem) (by simp [hlen]; omega)
        refine ⟨s', ?_, h2, by simpa using h3, by simpa using h4, h5⟩
        unfold drainUntil
        rw [if_neg (by simpa using hsome), hstep]
        exact h1

theorem schedSubmitAll_fields {α : Type} (l : List Int) :
    ∀ s : Sched α, (schedSubmitAll l s).pending = s.pending ++ l ∧
      (schedSubmitAll l s).log = s.log ++ l ∧
      (schedSubmitAll l s).jobs = s.jobs ∧
      (schedSubmitAll l s).completed = s.completed ∧
      (schedSubmitAll l s).oracle = s.oracle := by
  induction l with
  | nil => intro s; simp [schedSubmitAll]
  | cons i t ih =>
      intro s
      obtain ⟨h1, h2, h3, h4, h5⟩ := ih (schedSubmit i s)
      refine ⟨?_, ?_, ?_, ?_, ?_⟩
      · show (schedSubmitAll t (schedSubmit i s)).pending = _
        rw [h1]
        simp [schedSubmit]
      · show (schedSubmitAll t (schedSubmit i s)).log = _
        rw [h2]
        simp [schedSubmit]
      · show (schedSubmitAll t (schedSubmit i s)).jobs = _
        rw [h3]
        rfl
      · show (schedSubmitAll t (schedSubmit i s)).completed = _
        rw [h4]
        rfl
      · show (schedSubmitAll t (schedSubmit i s)).oracle = _
        rw [h5]
        rfl

theorem prefetchInit_spec {α : Type} (n : Nat) (f : Nat → Except String α)
    (b : Nat) (oracle : List Nat) :
    SchedInv n f b (prefetchInit α b oracle) ∧
    (prefetchInit α b oracle).jobs = intRange 0 b ∧
    (prefetchInit α b oracle).log = intRange 0 b ∧
    (prefetchInit α b oracle).pending = intRange 0 b ∧
    (prefetchInit α b oracle).completed = [] := by
  obtain ⟨h1, h2, h3, h4, h5⟩ := schedSubmitAll_fields (intRange 0 b)
    ({ jobs := intRange 0 b, completed := [], pending := [],
       log := [], oracle := oracle } : Sched α)
  have hjobs : (prefetchInit α b oracle).jobs = intRange 0 b := h3
  have hlog : (prefetchInit α b oracle).log = intRange 0 b := by
    rw [prefetchInit, h2]; rfl
  have hpend : (prefetchInit α b oracle).pending = intRange 0 b := by
    rw [prefetchInit, h1]; rfl
  have hcomp : (prefetchInit α b oracle).completed = [] := h4
  refine ⟨⟨⟨0, by rw [hjobs]; rfl⟩, ?_, ?_, ?_, ?_⟩, hjobs, hlog, hpend, hcomp⟩
  · rw [hcomp]; exact List.nodup_nil
  · rw [hcomp]; intro x hx; simp [keys] at hx
  · rw [hcomp]; intro p hp; simp at hp
  · rw [hcomp, hpend, hjobs]
    symm
    apply List.filter_eq_self.mpr
    intro x _
    simp [dictLookup]

theorem prefetchReset_spec {α : Type} (n : Nat) (f : Nat → Except String α)
    (b : Nat) (hb : 1 ≤ b) (s : Sched α) (item : Int) (hitem : 0 ≤ item)
    (hInv : SchedInv n f b s) :
    ∃ s₀, prefetchReset n f item s = some s₀ ∧ SchedInv n f b s₀ ∧
      s₀.jobs = intRange item b ∧
      s₀.log = s.log ++
        (if s.jobs.head? = some item then [] else intRange item b) := by
  by_cases hmono : s.jobs.head? = some item
  · -- monotonic request: the branch is skipped
    obtain ⟨a, ha⟩ := hInv.1
    have haitem : (a : Int) = item := by
      rw [ha, intRange_head _ _ hb] at hmono
      exact Option.some.inj hmono
    refine ⟨s, ?_, hInv, by rw [ha, haitem], by simp [hmono]⟩
    unfold prefetchReset
    rw [if_neg (by simpa using hmono)]
    rfl
  · -- non-monotonic request
    have hcount : s.jobs.length - s.completed.length = s.pending.length := by
      rw [hInv.2.2.2.2,
        length_filter_notDone s.jobs s.completed hInv.jobs_nodup
          hInv.2.1 hInv.2.2.1]
    obtain ⟨s1, hd, hjobs1, hcomp1, hlog1, hlen1, hnn1⟩ :=
      drainN_spec n f (s.jobs.length - s.completed.length) s
        hInv.pending_nonneg (by omega)
    have hpend1 : s1.pending = [] := by
      have hz : s1.pending.length = 0 := by omega
      exact List.length_eq_zero.mp hz
    obtain ⟨h1, h2, h3, h4, h5⟩ := schedSubmitAll_fields
      (intRange item s.jobs.length)
      ({ s1 with completed := [], jobs := intRange item s.jobs.length } : Sched α)
    set s₀ := schedSubmitAll (intRange item s.jobs.length)
      { s1 with completed := [], jobs := intRange item s.jobs.length } with hs₀
    have hjb : s.jobs.length = b := hInv.jobs_length
    have hjobs0 : s₀.jobs = intRange item b := by rw [h3]; simp [hjb]
    have hcomp0 : s₀.completed = [] := h4
    have hpend0 : s₀.pending = intRange item b := by
      rw [h1]
      simp [hpend1, hjb]
    have hlog0 : s₀.log = s.log ++ intRange item b := by
      rw [h2]
      simp [hlog1, hjb]
    refine ⟨s₀, ?_, ?_, hjobs0, by rw [hlog0, if_neg hmono]⟩
    · unfold prefetchReset
      rw [if_pos (by simpa using hmono)]
      rw [hd]
      rfl
    · refine ⟨⟨item.toNat, by rw [hjobs0, Int.toNat_of_nonneg hitem]⟩, ?_, ?_, ?_, ?_⟩
      · rw [hcomp0]; exact List.nodup_nil
      · rw [hcomp0]; intro x hx; simp [keys] at hx
      · rw [hcomp0]; intro p hp; simp at hp
      · rw [hcomp0, hpend0, hjobs0]
        symm
        apply List.filter_eq_self.mpr
        intro x _
        simp [dictLookup]

theorem prefetchFinish_spec {α : Type} (n : Nat) (f : Nat → Except String α)
    (b : Nat) (s : Sched α) (item : Int) (hitem : 0 ≤ item)
    (hInv : SchedInv n f b s) (hjobs : s.jobs = intRange item b)
    (hdone : dictLookup s.completed item = some (evalSeq n f item)) :
    ∃ s', prefetchFinish item s = some (evalSeq n f item, s') ∧
      SchedInv n f b s' ∧ s'.jobs = intRange (item + 1) b ∧
      s'.log = s.log ++ [item + (b : Int)] := by
  have hjb : s.jobs.length = b := hInv.jobs_length
  have hrefill : item + (s.jobs.length : Int) = item + (b : Int) := by rw [hjb]
  have hnewjobs : (s.jobs ++ [item + (s.jobs.length : Int)]).tail
      = intRange (item + 1) b := by
    rw [hrefill, hjobs, ← intRange_succ, intRange_cons]
    rfl
  have hknodup : (keys s.completed).Nodup := hInv.2.1
  have hkeyssub := hInv.2.2.1
  have hlookup' : ∀ x, dictLookup (dictErase s.completed item) x
      = if x = item then none else dictLookup s.completed x :=
    fun x => dictLookup_erase s.completed item x hknodup
  have hrefillfresh : dictLookup s.completed (item + (b : Int)) = none := by
    rw [dictLookup_eq_none_iff]
    intro hmem
    have := hkeyssub _ hmem
    rw [hjobs, mem_intRange] at this
    omega
  refine ⟨{ s with
      pending := s.pending ++ [item + (b : Int)],
      log := s.log ++ [item + (b : Int)],
      jobs := intRange (item + 1) b,
      completed := dictErase s.completed item }, ?_, ?_, rfl, rfl⟩
  · unfold prefetchFinish
    simp only [schedSubmit, hnewjobs]
    rw [show dictPop s.completed item
        = some (evalSeq n f item, dictErase s.completed item) by
      unfold dictPop; rw [hdone]]
    simp [hrefill]
  · refine ⟨⟨(item + 1).toNat, by rw [Int.toNat_of_nonneg (by omega)]⟩, ?_, ?_, ?_, ?_⟩
    · exact hknodup.sublist ((dictErase_sublist s.completed item).map Prod.fst)
    · intro x hx
      rw [← dictLookup_isSome_iff, hlookup' x] at hx
      by_cases hxi : x = item
      · rw [if_pos hxi] at hx; simp at hx
      · rw [if_neg hxi] at hx
        rw [dictLookup_isSome_iff] at hx
        have := hkeyssub x hx
        rw [hjobs, mem_intRange] at this
        rw [mem_intRange]
        omega
    · intro p hp
      exact hInv.2.2.2.1 p ((dictErase_sublist s.completed item).mem hp)
    · show s.pending ++ [item + (b : Int)] = _
      have hsplit : s.jobs.filter
            (fun j => (dictLookup s.completed j).isNone) ++ [item + (b : Int)]
          = (intRange item (b + 1)).filter
            (fun j => (dictLookup s.completed j).isNone) := by
        rw [intRange_succ, List.filter_append, ← hjobs]
        congr 1
        simp [hrefillfresh]
      have hdrop : (intRange item (b + 1)).filter
            (fun j => (dictLookup s.completed j).isNone)
          = (intRange (item + 1) b).filter
            (fun j => (dictLookup s.completed j).isNone) := by
        rw [intRange_cons, List.filter_cons, if_neg (by simp [hdone])]
      have hsame : (intRange (item + 1) b).filter
            (fun j => (dictLookup s.completed j).isNone)
          = (intRange (item + 1) b).filter
            (fun j => (dictLookup (dictErase s.completed item) j).isNone) := by
        refine (List.filter_congr ?_).symm
        intro x hx
        rw [mem_intRange] at hx
        rw [hlookup' x, if_neg (by omega)]
      rw [hInv.2.2.2.2, hsplit, hdrop, hsame]

theorem prefetchGetitem_spec {α : Type} (n : Nat) (f : Nat → Except String α)
    (b : Nat) (hb : 1 ≤ b) (s : Sched α) (item : Int) (hitem : 0 ≤ item)
    (hInv : SchedInv n f b s) :
    ∃ s', prefetchGetitem n f item s = some (evalSeq n f item, s') ∧
      SchedInv n f b s' ∧ s'.jobs = intRange (item + 1) b ∧
      s'.log = s.log ++
        (if s.jobs.head? = some item then [item + (b : Int)]
         else intRange item b ++ [item + (b : Int)]) := by
  obtain ⟨s₀, h0, hInv0, hjobs0, hlog0⟩ :=
    prefetchReset_spec n f b hb s item hitem hInv
  have hmem : item ∈ s₀.jobs := by
    rw [hjobs0, mem_intRange]
    omega
  obtain ⟨s₂, h2, hInv2, hjobs2, hlog2, hdone2⟩ :=
    drainUntil_spec n f b item s₀.pending.length s₀ hInv0 hmem le_rfl
  obtain ⟨s', h3, hInv', hjobs', hlog'⟩ :=
    prefetchFinish_spec n f b s₂ item hitem hInv2 (hjobs2.trans hjobs0) hdone2
  refine ⟨s', ?_, hInv', hjobs', ?_⟩
  · unfold prefetchGetitem
    rw [h0]
    show (drainUntil n f item s₀.pending.length s₀).bind _ = _
    rw [h2]
    exact h3
  · rw [hlog', hlog2, hlog0]
    by_cases hmono : s.jobs.head? = some item <;>
      simp [hmono]

/-- Whole-run correctness: from any invariant state, a run over any
list of nonnegative item indices returns exactly the worker
evaluations of those items, in request order. -/
theorem prefetchRun_spec {α : Type} (n : Nat) (f : Nat → Except String α)
    (b : Nat) (hb : 1 ≤ b) :
    ∀ (accesses : List Int) (s : Sched α), (∀ i ∈ accesses, 0 ≤ i) →
      SchedInv n f b s →
      ∃ s', prefetchRun n f accesses s
          = some (accesses.map (evalSeq n f), s') ∧ SchedInv n f b s' := by
  intro accesses
  induction accesses with
  | nil => intro s _ hInv; exact ⟨s, rfl, hInv⟩
  | cons i t ih =>
      intro s hnn hInv
      obtain ⟨s₁, h1, hInv1, -, -⟩ :=
        prefetchGetitem_spec n f b hb s i (hnn i (by simp)) hInv
      obtain ⟨s', h2, hInv'⟩ := ih s₁ (fun j hj => hnn j (by simp [hj])) hInv1
      refine ⟨s', ?_, hInv'⟩
      unfold prefetchRun
      rw [h1]
      show (prefetchRun n f t s₁).bind _ = _
      rw [h2]
      rfl

/-! ## Negative indices (claim C10 machinery) -/

theorem waitCompletion_inversion {α : Type} (n : Nat)
    (f : Nat → Except String α) (s : Sched α) (j : Int) (pl : Except String α)
    (s' : Sched α) (h : waitCompletion n f s = some ((j, pl), s')) :
    0 ≤ j ∧ s'.completed = s.completed := by
  unfold waitCompletion at h
  cases hw : waitLoop n f s.pending.length s.oracle s.pending with
  | none => rw [hw] at h; simp at h
  | some r =>
      rw [hw] at h
      obtain ⟨⟨j', pl'⟩, p', o'⟩ := r
      have h' : ((j', pl'),
          ({ s with pending := p', oracle := o' } : Sched α)) = ((j, pl), s') :=
        Option.some.inj h
      have hj : j' = j := congrArg (fun q => q.1.1) h'
      have hs : ({ s with pending := p', oracle := o' } : Sched α) = s' :=
        congrArg Prod.snd h'
      constructor
      · rw [← hj]
        exact waitLoop_result_nonneg n f _ _ _ _ _ _ _ hw
      · rw [← hs]

/-- If the requested item is negative, `drainUntil` never finds it:
workers only ever complete nonnegative job indices, so the wait loops
until it blocks. -/
theorem drainUntil_neg {α : Type} (n : Nat) (f : Nat → Except String α)
    (item : Int) (hneg : item < 0) :
    ∀ (fuel : Nat) (s : Sched α), dictLookup s.completed item = none →
      drainUntil n f item fuel s = none := by
  intro fuel
  induction fuel with
  | zero =>
      intro s hnone
      simp [drainUntil, hnone]
  | succ fuel ih =>
      intro s hnone
      unfold drainUntil
      rw [if_neg (by simp [hnone])]
      cases hw : waitCompletion n f s with
      | none => rfl
      | some r =>
          obtain ⟨⟨j, pl⟩, s'⟩ := r
          obtain ⟨hj, hc⟩ := waitCompletion_inversion n f s j pl s' hw
          apply ih
          show dictLookup (dictInsert s'.completed j pl) item = none
          rw [dictLookup_insert, if_neg (by omega), hc]
          exact hnone

/-- A negative request from the freshly initialized prefetcher blocks
forever: the non-monotonic branch fires (the ring head is item 0),
every in-flight job is drained, the ring is resubmitted as sentinel
(or never-matching) jobs, and the wait loop never sees a completion
for the negative item. -/
theorem prefetchGetitem_neg {α : Type} (n : Nat) (f : Nat → Except String α)
    (b : Nat) (hb : 1 ≤ b) (oracle : List Nat) (item : Int) (hneg : item < 0) :
    prefetchGetitem n f item (prefetchInit α b oracle) = none := by
  obtain ⟨hInv, hjobs, hlog, hpend, hcomp⟩ := prefetchInit_spec n f b oracle
  set P := prefetchInit α b oracle with hP
  have hmono : P.jobs.head? ≠ some item := by
    rw [hjobs, intRange_head 0 b hb]
    intro h
    have := Option.some.inj h
    omega
  have hcount : P.jobs.length - P.completed.length = P.pending.length := by
    rw [hjobs, hcomp, hpend]
    simp
  obtain ⟨s1, hd, hjobs1, hcomp1, hlog1, hlen1, hnn1⟩ :=
    drainN_spec n f (P.jobs.length - P.completed.length) P hInv.pending_nonneg
      (le_of_eq hcount)
  set mid := ({ s1 with completed := [], jobs := intRange item P.jobs.length } : Sched α) with hmid
  obtain ⟨h1, h2, h3, h4, h5⟩ :=
    schedSubmitAll_fields (intRange item P.jobs.length) mid
  have hreset : prefetchReset n f item P
      = some (schedSubmitAll (intRange item P.jobs.length) mid) := by
    unfold prefetchReset
    rw [if_pos (by simpa using hmono), hd]
    rfl
  unfold prefetchGetitem
  rw [hreset]
  show (drainUntil n f item _ _).bind _ = _
  rw [drainUntil_neg n f item hneg _ _ (by rw [h4]; rfl)]
  rfl

/-- Length preservation of a successful fallible comprehension. -/
theorem mapOption_length {α β : Type} (g : α → Option β) :
    ∀ (l : List α) (l' : List β), mapOption g l = some l' → l'.length = l.length := by
  intro l
  induction l with
  | nil =>
      intro l' h
      have : l' = [] := (Option.some.inj h).symm
      rw [this]
      rfl
  | cons x t ih =>
      intro l' h
      unfold mapOption at h
      cases hx : g x with
      | none => rw [hx] at h; simp at h
      | some y =>
          rw [hx] at h
          cases ht : mapOption g t with
          | none => rw [ht] at h; simp at h
          | some t' =>
              rw [ht] at h
              have : y :: t' = l' := Option.some.inj h
              rw [← this]
              simp [ih t' ht]

/-- On a negative request from the initial state, the reset branch
drains everything and resubmits the ring as `range(item, item + b)`:
those are the in-flight jobs afterwards. -/
theorem prefetchReset_init_pending {α : Type} (n : Nat)
    (f : Nat → Except String α) (b : Nat) (hb : 1 ≤ b) (oracle : List Nat)
    (item : Int) (hneg : item < 0) :
    (prefetchReset n f item (prefetchInit α b oracle)).map (fun q => q.pending)
      = some (intRange item b) := by
  obtain ⟨hInv, hjobs, hlog, hpend, hcomp⟩ := prefetchInit_spec n f b oracle
  set P := prefetchInit α b oracle with hP
  have hmono : P.jobs.head? ≠ some item := by
    rw [hjobs, intRange_head 0 b hb]
    intro h
    have := Option.some.inj h
    omega
  have hcount : P.jobs.length - P.completed.length = P.pending.length := by
    rw [hjobs, hcomp, hpend]
    simp
  obtain ⟨s1, hd, hjobs1, hcomp1, hlog1, hlen1, hnn1⟩ :=
    drainN_spec n f (P.jobs.length - P.completed.length) P hInv.pending_nonneg
      (le_of_eq hcount)
  have hpend1 : s1.pending = [] := by
    have hz : s1.pending.length = 0 := by omega
    exact List.length_eq_zero.mp hz
  set mid := ({ s1 with completed := [], jobs := intRange item P.jobs.length } : Sched α) with hmid
  obtain ⟨h1, h2, h3, h4, h5⟩ :=
    schedSubmitAll_fields (intRange item P.jobs.length) mid
  have hreset : prefetchReset n f item P
      = some (schedSubmitAll (intRange item P.jobs.length) mid) := by
    unfold prefetchReset
    rw [if_pos (by simpa using hmono), hd]
    rfl
  rw [hreset, Option.map_some', h1]
  have hmidp : mid.pending = [] := hpend1
  rw [hmidp, List.nil_append, hjobs, intRange_length]

/-! ## The claims -/

/-- Claim C1 — identity under prefetch: over the oracle-abstracted
backend (the oracle ranges over every completion order any thread,
process or shared-memory worker pool could produce; `b` is any ring
size `max_buffered ≥ 1`), a run over any finite access pattern of item
indices returns, access by access and in request order, exactly the
worker evaluation of `seq[i]` — and that evaluation is `f i`, the
value `s[i]` would produce, whenever `i` is in range.  Iterating the
view corresponds to `accesses = [0, …, len-1]`. -/
theorem prefetch_identity {α : Type} (n : Nat) (f : Nat → Except String α)
    (b : Nat) (hb : 1 ≤ b) (oracle : List Nat) (accesses : List Nat) :
    (prefetchRun n f (accesses.map fun i : Nat => (i : Int))
        (prefetchInit α b oracle)).map Prod.fst
      = some (accesses.map fun i : Nat => evalSeq n f (i : Int)) ∧
    ∀ i : Nat, i < n → evalSeq n f (i : Int) = f i := by
  constructor
  · obtain ⟨hInv, -, -, -, -⟩ := prefetchInit_spec n f b oracle
    obtain ⟨s', h, -⟩ := prefetchRun_spec n f b hb
      (accesses.map fun i : Nat => (i : Int)) (prefetchInit α b oracle)
      (by
        intro i hi
        rw [List.mem_map] at hi
        obtain ⟨j, -, rfl⟩ := hi
        omega) hInv
    rw [h, List.map_map]
    rfl
  · intro i hi
    unfold evalSeq
    rw [if_pos (by omega)]
    simp

theorem prefetch_identity_witness :
    (prefetchRun 3 (fun i => Except.ok (10 * i))
        ([0, 2, 1, 1].map fun i : Nat => (i : Int))
        (prefetchInit Nat 2 [1, 0, 1, 0, 0, 0, 0, 1])).map Prod.fst
      = some [Except.ok 0, Except.ok 20, Except.ok 10, Except.ok 10] :=
  ((prefetch_identity 3 (fun i => Except.ok (10 * i)) 2 (by decide)
      [1, 0, 1, 0, 0, 0, 0, 1] [0, 2, 1, 1]).1).trans (by rfl)

/-- Claim C2 counterexample: from a fresh prefetcher with ring size 2
(submission log `[0, 1]`), the non-monotonic request for item 5
submits three new jobs (5, 6 and the refill 7), not one — the log
ends as `[0, 1, 5, 6, 7]`. -/
theorem prefetch_boundedness_counterexample :
    (prefetchInit Nat 2 (List.replicate 10 0)).log = [0, 1] ∧
    (prefetchGetitem 10 (fun i => Except.ok i) 5
        (prefetchInit Nat 2 (List.replicate 10 0))).map (fun r => r.2.log)
      = some [0, 1, 5, 6, 7] := ⟨rfl, rfl⟩

/-- Claim C2 (amended) — boundedness of in-flight work: initialization
submits exactly the ring size of jobs, and after any run of consumer
operations at most `max_buffered` submitted jobs remain undrained (the
bound holds at every intermediate submission too: the reset branch
only submits after draining every outstanding completion, and the
refill is submitted while the requested completion is held drained).
A monotonic `__getitem__` submits exactly one new job, only after the
requested item's completion has been drained; a non-monotonic one
first drains all outstanding completions and then submits the
ring-size fresh jobs plus the one refill. -/
theorem prefetch_boundedness {α : Type} (n : Nat) (f : Nat → Except String α)
    (b : Nat) (hb : 1 ≤ b) (oracle : List Nat) :
    ((prefetchInit α b oracle).log.length = b ∧
      (prefetchInit α b oracle).pending.length = b) ∧
    (∀ (accesses : List Int) (res : List (Except String α)) (s' : Sched α),
      (∀ i ∈ accesses, 0 ≤ i) →
      prefetchRun n f accesses (prefetchInit α b oracle) = some (res, s') →
      s'.pending.length ≤ b) ∧
    (∀ (s : Sched α) (item : Int) (res : Except String α) (s' : Sched α),
      SchedInv n f b s → 0 ≤ item → s.jobs.head? = some item →
      prefetchGetitem n f item s = some (res, s') →
      s'.log = s.log ++ [item + (b : Int)]) ∧
    (∀ (s : Sched α) (item : Int) (res : Except String α) (s' : Sched α),
      SchedInv n f b s → 0 ≤ item → s.jobs.head? ≠ some item →
      prefetchGetitem n f item s = some (res, s') →
      s'.log = s.log ++ (intRange item b ++ [item + (b : Int)])) := by
  obtain ⟨hInv, hjobs, hlog, hpend, -⟩ := prefetchInit_spec n f b oracle
  refine ⟨⟨by rw [hlog, intRange_length], by rw [hpend, intRange_length]⟩, ?_, ?_, ?_⟩
  · intro accesses res s' hnn hrun
    obtain ⟨s'', hrun', hInv'⟩ := prefetchRun_spec n f b hb accesses _ hnn hInv
    rw [hrun] at hrun'
    have : s' = s'' := congrArg Prod.snd (Option.some.inj hrun')
    rw [this]
    exact hInv'.pending_length_le
  · intro s item res s' hsInv hitem hmono hget
    obtain ⟨s'', hget', -, -, hlog'⟩ :=
      prefetchGetitem_spec n f b hb s item hitem hsInv
    rw [hget] at hget'
    have : s' = s'' := congrArg Prod.snd (Option.some.inj hget')
    rw [this, hlog', if_pos hmono]
  · intro s item res s' hsInv hitem hmono hget
    obtain ⟨s'', hget', -, -, hlog'⟩ :=
      prefetchGetitem_spec n f b hb s item hitem hsInv
    rw [hget] at hget'
    have : s' = s'' := congrArg Prod.snd (Option.some.inj hget')
    rw [this, hlog', if_neg hmono]

theorem prefetch_boundedness_witness :
    (prefetchInit Nat 1 ([] : List Nat)).log.length = 1 ∧
    ({ jobs := [1], completed := [], pending := [1], log := [0, 1],
        oracle := [] } : Sched Nat).pending.length ≤ 1 :=
  ⟨(prefetch_boundedness 5 (fun i => Except.ok i) 1 (by decide) []).1.1,
   (prefetch_boundedness 5 (fun i => Except.ok i) 1 (by decide) []).2.1
     [0] [Except.ok 0] _ (by decide) (by rfl)⟩

/-- Claim C3 — the code at the claimed behavior's input: with the mode
flag at passthrough (`true`) and a transportable error, `reraise_err`
raises `EvaluationError` wrapping the cause instead of the original
error, and resets the flag to wrap (`false`): the source tests
`seterr() == "passthrough"`, but `seterr()` runs with its default
argument `'wrap'` (setting the mode) and returns `None`.  In wrap
mode the outcome is the same wrapped error, so the two modes are
indistinguishable and the configuration is clobbered. -/
theorem reraiseErr_passthrough_eval :
    reraiseErr 3 (.exc "ValueError") none true
      = (.evaluationError "failed to evaluate item 3" (some (.exc "ValueError")),
         false) ∧
    reraiseErr 3 (.exc "ValueError") none false
      = (.evaluationError "failed to evaluate item 3" (some (.exc "ValueError")),
         false) ∧
    reraiseErr 3 (.str "trace") none true
      = (.evaluationError
          "failed to evaluate item 3\n\noriginal error was:\ntrace" none,
         true) := ⟨rfl, rfl, rfl⟩

/-- Claim C4 counterexample: `prefetch(seq, nworkers=0)` returns the
source sequence itself rather than a worker-backed view, and
`nworkers = -2` with 8 cpus resolves to `8 - (-2) = 10` workers,
not `max(1, 8 - 2) = 6`. -/
theorem prefetch_nworkers_counterexample :
    prefetchFn 0 "thread" 10 8 = .ok .plainSeq ∧
    prefetchFn (-2) "thread" 10 8 = .ok (.prefetched 10 10) ∧
    (10 : Int) ≠ max 1 (8 - 2) := ⟨rfl, rfl, by decide⟩

/-- Claim C4 (amended) — worker-count option: a positive `nworkers`
starts exactly that many workers; `nworkers = 0` makes `prefetch`
return the source sequence unchanged (no workers at all); a negative
`nworkers` starts `cpu_count + |nworkers|` workers (the code computes
`cpu_count() - num_workers`). -/
theorem prefetch_nworkers (nw mb cpu : Int) (m : String) (hcpu : 1 ≤ cpu)
    (hm : m = "thread" ∨ m = "process") :
    (0 < nw → prefetchFn nw m mb cpu = .ok (.prefetched nw mb)) ∧
    (nw = 0 → prefetchFn nw m mb cpu = .ok .plainSeq) ∧
    (nw < 0 → prefetchFn nw m mb cpu = .ok (.prefetched (cpu - nw) mb)) := by
  refine ⟨?_, ?_, ?_⟩
  · intro h
    have hres : resolveNumWorkers nw cpu = .ok nw := by
      simp only [resolveNumWorkers]
      rw [if_neg (show ¬ nw ≤ 0 by omega), if_neg (show ¬ nw ≤ 0 by omega)]
    unfold prefetchFn
    rw [if_neg (show ¬ nw = 0 by omega), if_pos hm, hres]
    rfl
  · intro h
    unfold prefetchFn
    rw [if_pos h]
  · intro h
    have hres : resolveNumWorkers nw cpu = .ok (cpu - nw) := by
      simp only [resolveNumWorkers]
      rw [if_pos (show nw ≤ 0 by omega), if_neg (show ¬ cpu - nw ≤ 0 by omega)]
    unfold prefetchFn
    rw [if_neg (show ¬ nw = 0 by omega), if_pos hm, hres]
    rfl

theorem prefetch_nworkers_witness :
    prefetchFn 3 "process" 10 8 = .ok (.prefetched 3 10) ∧
    prefetchFn (-2) "thread" 10 8 = .ok (.prefetched (8 - (-2)) 10) :=
  ⟨(prefetch_nworkers 3 10 8 "process" (by decide) (Or.inr rfl)).1 (by decide),
   (prefetch_nworkers (-2) 10 8 "thread" (by decide) (Or.inl rfl)).2.2 (by decide)⟩

/-- Claim C5 — buffer-exhaustion protocol: when the free queue is
empty, `fetch` runs exactly one garbage-collection pass (flushing the
collectable slots) and retries; if the retry finds a slot the job is
enqueued with it; if not, `submit_job` raises the fatal worker-died
error when some worker is dead and the buffer-exhausted `MemoryError`
otherwise — and in both error cases the whole backend state, the job
queue included, is left unchanged. -/
theorem submitJob_exhaustion (item : Int) (st : SHMState)
    (hfree : st.recycler.free = []) :
    (∀ (i : Nat) (rest : List Nat), st.recycler.collectable = i :: rest →
      submitJob item st = (.ok (), { st with
        recycler := ⟨rest, []⟩,
        resultBuffers := st.resultBuffers ++ [(item, i)],
        jobQueue := st.jobQueue ++ [(item, i)] })) ∧
    (st.recycler.collectable = [] →
      ((st.workersAlive.any fun a => !a) = true →
        submitJob item st = (.error .workerDied, st)) ∧
      ((st.workersAlive.any fun a => !a) = false →
        submitJob item st =
          (.error (.bufferExhausted "none of the buffers has been release yet."),
           st))) := by
  constructor
  · intro i rest hcoll
    unfold submitJob recyclerFetch
    rw [hfree, hcoll]
  · intro hcoll
    constructor <;> intro hworkers <;>
      · unfold submitJob recyclerFetch
        rw [hfree, hcoll]
        simp [hworkers]

theorem submitJob_exhaustion_witness :
    submitJob 3 ⟨⟨[], [4]⟩, [(1, 0)], [true], []⟩
      = (.ok (), ⟨⟨[], []⟩, [(1, 0), (3, 4)], [true], [(3, 4)]⟩) ∧
    submitJob 3 ⟨⟨[], []⟩, [(1, 0)], [true, false], []⟩
      = (.error .workerDied, ⟨⟨[], []⟩, [(1, 0)], [true, false], []⟩) ∧
    submitJob 3 ⟨⟨[], []⟩, [(1, 0)], [true, true], []⟩
      = (.error (.bufferExhausted "none of the buffers has been release yet."),
         ⟨⟨[], []⟩, [(1, 0)], [true, true], []⟩) :=
  ⟨(submitJob_exhaustion 3 ⟨⟨[], [4]⟩, [(1, 0)], [true], []⟩ rfl).1 4 [] rfl,
   ((submitJob_exhaustion 3 ⟨⟨[], []⟩, [(1, 0)], [true, false], []⟩ rfl).2 rfl).1 rfl,
   ((submitJob_exhaustion 3 ⟨⟨[], []⟩, [(1, 0)], [true, true], []⟩ rfl).2 rfl).2 rfl⟩

/-- Claim C6 counterexample: the arange view `Arange(0, 5, 1)` has
length 5, its in-range element at index 4 is 4, yet `get(-1)` returns
`-1` (not the value 4 that normalization to `len + (-1)` would give,
and no index error), and the out-of-range `get(7)` returns 7 instead
of raising. -/
theorem arange_bounds_counterexample :
    arangeLen (arangeMk 0 (some 5) none) = 5 ∧
    arangeGetitem (arangeMk 0 (some 5) none) (.int 4) = .ok (.val 4) ∧
    arangeGetitem (arangeMk 0 (some 5) none) (.int (-1)) = .ok (.val (-1)) ∧
    arangeGetitem (arangeMk 0 (some 5) none) (.int 7) = .ok (.val 7) ∧
    ((-1 : Int) ≠ 4) := ⟨by decide, rfl, rfl, rfl, by decide⟩

/-- Claim C6 (amended) — index validation: every view whose
`__getitem__` is wrapped by `basic_getitem` raises the index error
exactly when the integer index lies outside `[-len, len)`, normalizes
a negative in-range index to `len + index` before delegation, and
raises the invalid-index-type error on a non-integer, non-slice key.
The `Arange` view, however, performs only the type check: an integer
key is neither bounds-checked nor normalized — `get(i)` returns
`start + step * i` for every integer `i`. -/
theorem index_validation {α : Type} (cls : String) (len : Nat)
    (inner : Nat → α) (i : Int) (t : String) (ar : Arange) :
    ((i < -(len : Int) ∨ i ≥ (len : Int)) ↔
      basicGetitem cls len inner (.int i)
        = .error (.indexError (cls ++ " index out of range"))) ∧
    (-(len : Int) ≤ i → i < 0 →
      basicGetitem cls len inner (.int i)
        = basicGetitem cls len inner (.int (i + len))) ∧
    (basicGetitem cls len inner (.other t)
      = .error (.typeError
          (cls ++ " indices must be integers or slices, not " ++ t))) ∧
    (arangeGetitem ar (.int i) = .ok (.val (ar.start + ar.step * i))) ∧
    (arangeGetitem ar (.other t)
      = .error (.typeError ("Arange indices must be integers or slices, not " ++ t))) := by
  have hbase : ∀ j : Int, basicGetitem cls len inner (.int j)
      = if j < -(len : Int) ∨ j ≥ (len : Int) then
          .error (.indexError (cls ++ " index out of range"))
        else if j < 0 then .ok (.val (inner (j + (len : Int)).toNat))
        else .ok (.val (inner j.toNat)) := fun j => rfl
  refine ⟨⟨?_, ?_⟩, ?_, rfl, rfl, rfl⟩
  · intro h
    rw [hbase i, if_pos h]
  · intro h
    by_contra hout
    rw [hbase i, if_neg hout] at h
    by_cases hi : i < 0
    · rw [if_pos hi] at h
      exact absurd h (by simp)
    · rw [if_neg hi] at h
      exact absurd h (by simp)
  · intro h1 h2
    rw [hbase i, hbase (i + len),
      if_neg (show ¬ (i < -(len : Int) ∨ i ≥ (len : Int)) by omega),
      if_pos h2,
      if_neg (show ¬ (i + (len : Int) < -(len : Int) ∨ i + (len : Int) ≥ (len : Int)) by omega),
      if_neg (show ¬ i + (len : Int) < 0 by omega)]

theorem index_validation_witness :
    basicGetitem "View" 5 (fun k => k) (.int (-2))
      = basicGetitem "View" 5 (fun k => k) (.int 3) ∧
    basicGetitem "View" 5 (fun k => k) (.int 7)
      = .error (.indexError "View index out of range") ∧
    arangeGetitem (arangeMk 0 (some 5) none) (.int 2) = .ok (.val (0 + 1 * 2)) :=
  ⟨(index_validation "View" 5 (fun k => k) (-2) "str" (arangeMk 0 (some 5) none)).2.1
      (by decide) (by decide),
   (index_validation "View" 5 (fun k => k) 7 "str" (arangeMk 0 (some 5) none)).1.mp
      (by decide),
   (index_validation "View" 5 (fun k => k) 2 "str" (arangeMk 0 (some 5) none)).2.2.2.1⟩

/-- Claim C7 — gather composition: whenever the index array `b` is
valid for `a` (the composition `[a[i] for i in b]` succeeds,
Python-style negative indexing included), constructing
`gather(gather(s, a), b)` yields literally the single-layer view
`gather(s, a[b])` over the base sequence `s` — the flattening happens
at construction, no second gather layer is stacked — and its length is
`len(b)`; element-wise equality with `gather(s, a[b])` under `get`
follows from the equality of the views. -/
theorem gather_composition {α : Type} (s : List α) (a b composed : List Int)
    (h : mapOption (pyGet a) b = some composed) :
    gatherNested (gatherBase s a) b = some (gatherBase s composed) ∧
    gatherLen (gatherBase s composed) = b.length ∧
    ∀ i : Int, (gatherNested (gatherBase s a) b).map (fun g => gatherGetInt g i)
      = some (gatherGetInt (gatherBase s composed) i) := by
  have h1 : gatherNested (gatherBase s a) b = some (gatherBase s composed) := by
    unfold gatherNested
    show (mapOption (pyGet a) b).map _ = _
    rw [h]
    rfl
  refine ⟨h1, ?_, ?_⟩
  · show composed.length = b.length
    exact mapOption_length (pyGet a) b composed h
  · intro i
    rw [h1]
    rfl

theorem gather_composition_witness :
    gatherNested (gatherBase ([10, 20, 30] : List Nat) [2, 0, 1]) [1, -1, 0]
      = some (gatherBase [10, 20, 30] [0, 1, 2]) ∧
    gatherLen (gatherBase ([10, 20, 30] : List Nat) [0, 1, 2]) = 3 ∧
    gatherGetInt (gatherBase ([10, 20, 30] : List Nat) [0, 1, 2]) 1 = some 20 :=
  ⟨(gather_composition [10, 20, 30] [2, 0, 1] [1, -1, 0] [0, 1, 2] (by rfl)).1,
   (gather_composition [10, 20, 30] [2, 0, 1] [1, -1, 0] [0, 1, 2] (by rfl)).2.1,
   by rfl⟩

/-- Claim C8 — the code at the failing input: with `seq = [0,1,2,3]`,
`k = 2` (so `k` divides `n`), `drop_last = false` and `pad = 9`, the
batch view has `4 / 2 = 2` groups and group 0 is `[0, 1]`, but the
last group is `[2, 3, 9, 9]`: `pad_size = k - n % k = 2 - 0 = 2` pad
items are appended even though the group is not short, where the claim
(and the `batch` docstring, which pads only *up to* `k` elements)
requires exactly `[2, 3]`. -/
theorem batch_pad_eval :
    batchLen 4 2 false = 2 ∧
    batchGet [0, 1, 2, 3] 2 false (some 9) 0 = [0, 1] ∧
    batchGet [0, 1, 2, 3] 2 false (some 9) 1 = [2, 3, 9, 9] ∧
    batchGet [0, 1, 2, 3] 2 false none 1 = [2, 3] := ⟨rfl, rfl, rfl, rfl⟩

/-- Claim C9 counterexample: with `cache_size = 2` and accesses
`[0, 1, 0, 2]` over `seq i = 10 + i`, the third access is a hit
(no evaluation), yet after access 2 the cache holds `{1, 2}` — index
0, one of the two most recently used, has been evicted (the oldest
*inserted* entry goes, not the least recently used) — so a repeat
access to 0 evaluates the sequence again. -/
theorem cache_lru_counterexample :
    cachedRun (fun i => 10 + i) 2 [0, 1, 0, 2] []
      = ([(1, 11), (2, 12)], [true, true, false, true]) ∧
    (cachedGet (fun i => 10 + i) 2 [(1, 11), (2, 12)] 0).2.2 = true := ⟨rfl, rfl⟩

/-- Claim C9 (amended) — cache discipline of `add_cache`: the cached
view never holds more than `cache_size` entries, a hit returns the
stored value without re-evaluating the underlying sequence and leaves
the cache unchanged, the entry evicted when a miss finds the cache
full is the front of the ordered dict — the oldest *inserted* entry
(FIFO; a hit does not refresh recency, so this is not LRU) — and
iteration bypasses the cache entirely. -/
theorem cache_discipline {α : Type} (seq : Nat → α) (c : Nat) (hc : 1 ≤ c)
    (cache : List (Nat × α)) (key : Nat) :
    (∀ accesses : List Nat, ((cachedRun seq c accesses []).1).length ≤ c) ∧
    (∀ v, dictLookup cache key = some v →
      cachedGet seq c cache key = (v, cache, false)) ∧
    (dictLookup cache key = none → c ≤ cache.length →
      (cachedGet seq c cache key).2.1 = cache.tail ++ [(key, seq key)]) ∧
    (dictLookup cache key = none → cache.length < c →
      (cachedGet seq c cache key).2.1 = cache ++ [(key, seq key)]) ∧
    (∀ m : Nat, cachedIter seq m = (List.range m).map seq) := by
  have hstep : ∀ (cache : List (Nat × α)) (key : Nat), cache.length ≤ c →
      ((cachedGet seq c cache key).2.1).length ≤ c := by
    intro cache key hlen
    unfold cachedGet
    cases hl : dictLookup cache key with
    | some v => simpa using hlen
    | none =>
        by_cases hfull : cache.length ≥ c
        · rw [if_pos hfull]
          simp only [List.length_append, List.length_singleton]
          have : cache.tail.length = cache.length - 1 := List.length_tail cache
          omega
        · rw [if_neg hfull]
          simp only [List.length_append, List.length_singleton]
          omega
  refine ⟨?_, ?_, ?_, ?_, fun m => rfl⟩
  · have hgen : ∀ (accesses : List Nat) (cache : List (Nat × α)),
        cache.length ≤ c → ((cachedRun seq c accesses cache).1).length ≤ c := by
      intro accesses
      induction accesses with
      | nil => intro cache hlen; exact hlen
      | cons k ks ih =>
          intro cache hlen
          exact ih _ (hstep cache k hlen)
    intro accesses
    exact hgen accesses [] (by simp)
  · intro v hv
    unfold cachedGet
    rw [hv]
  · intro hmiss hfull
    unfold cachedGet
    rw [hmiss, if_pos (by omega)]
  · intro hmiss hroom
    unfold cachedGet
    rw [hmiss, if_neg (by omega)]

theorem cache_discipline_witness :
    ((cachedRun (fun i : Nat => i) 1 [0, 1] []).1).length ≤ 1 ∧
    (cachedGet (fun i : Nat => i) 1 [] 0).2.1 = [] ++ [(0, 0)] ∧
    cachedGet (fun i : Nat => i) 2 [(3, 3)] 3 = (3, [(3, 3)], false) :=
  ⟨(cache_discipline (fun i : Nat => i) 1 (by decide) [] 0).1 [0, 1],
   (cache_discipline (fun i : Nat => i) 1 (by decide) [] 0).2.2.2.1 rfl (by decide),
   (cache_discipline (fun i : Nat => i) 2 (by decide) [(3, 3)] 3).2.1 3 rfl⟩

/-- Claim C10 — negative indices alias the termination sentinel: a
worker (thread or process backend) that reads a job with a negative
item index returns at once, emitting no completion for it or anything
after it; `Prefetch.__getitem__` performs no bounds check, so a
negative request from the initial state raises no index error — it
takes the non-monotonic branch and submits the ring as
`range(item, item + b)` (sentinel jobs) — and since no completion for
the negative item is ever produced, the call blocks forever
(result `none`). -/
theorem negative_index_sentinel {α : Type} (n : Nat)
    (f : Nat → Except String α) (idx : Int) (hidx : idx < 0) (rest : List Int)
    (b : Nat) (hb : 1 ≤ b) (oracle : List Nat) (item : Int) (hneg : item < 0) :
    workerRun n f (idx :: rest) = [] ∧
    (prefetchReset n f item (prefetchInit α b oracle)).map (fun q => q.pending)
      = some (intRange item b) ∧
    prefetchGetitem n f item (prefetchInit α b oracle) = none :=
  ⟨by unfold workerRun; rw [if_pos hidx],
   prefetchReset_init_pending n f b hb oracle item hneg,
   prefetchGetitem_neg n f b hb oracle item hneg⟩

theorem negative_index_sentinel_witness :
    workerRun 3 (fun i => Except.ok i) [-1, 0, 1] = [] ∧
    prefetchGetitem 3 (fun i => Except.ok i) (-2) (prefetchInit Nat 2 [0, 1, 0]) = none :=
  ⟨(negative_index_sentinel 3 (fun i => Except.ok i) (-1) (by decide) [0, 1]
      2 (by decide) [0, 1, 0] (-2) (by decide)).1,
   (negative_index_sentinel 3 (fun i => Except.ok i) (-1) (by decide) [0, 1]
      2 (by decide) [0, 1, 0] (-2) (by decide)).2.2⟩

end SeqTools
